import Mathlib

/-!
Verification development for the `stack` middleware-composition library.

The embedding models the current version of the library (the second snapshot
in `stack.go` together with the mutex-protected `Context` in the unnamed
source file):

* `Context` objects live in a heap (`St.ctxs`); a `*Context` is an index into
  that heap, and each object's mapping is an association list mirroring the
  Go `map[string]interface{}`.
* Middleware slices are modelled with explicit backing arrays (`St.arrs`), a
  slice being a (array reference, length) pair, so that the aliasing
  behaviour of Go's `append` (reuse of spare capacity versus reallocation)
  is visible.  Per the Go specification, `append` re-uses the underlying
  array whenever its capacity suffices and otherwise allocates a new,
  sufficiently large array; the capacity of a freshly allocated array is
  modelled with the doubling rule the gc runtime uses for small slices.
* Middleware and terminal handlers are deep-embedded as descriptions of the
  observable behaviour the test-suite middleware exhibit: context operations
  performed on entry, strings written on entry, whether `next` is invoked,
  and strings written after delegation.  `closedChain.ServeHTTP` is
  translated line by line: copy the base context, build the final handler by
  the downward loop over the middleware slice, then invoke it.
* The reader/writer-lock discipline of the `Context` methods is modelled
  separately as the sequence of lock events each method body performs.
-/

namespace Stack

/-- A stored value (`interface{}` in Go): either the untyped `nil` or a
string payload, which is all the repository's code and tests ever store. -/
inductive Val where
  | vnil : Val
  | vstr (s : String) : Val
deriving DecidableEq, Repr, Inhabited

/-- `fmt`'s `%v` rendering of a stored value, as used by the test handlers. -/
def renderVal : Val → String
  | .vnil => "<nil>"
  | .vstr s => s

/-- The mapping owned by one `Context` (`c.m : map[string]interface{}`). -/
abbrev CtxMap := List (String × Val)

/-- Go map read `c.m[key]`. -/
def mapLookup : CtxMap → String → Option Val
  | [], _ => none
  | (k', v) :: rest, k => if k = k' then some v else mapLookup rest k

/-- Go map assignment `c.m[key] = val`. -/
def mapAssign : CtxMap → String → Val → CtxMap
  | [], k, v => [(k, v)]
  | (k', v') :: rest, k, v =>
      if k = k' then (k, v) :: rest else (k', v') :: mapAssign rest k v

/-- Go built-in `delete(c.m, key)`. -/
def mapDelete : CtxMap → String → CtxMap
  | [], _ => []
  | (k', v') :: rest, k =>
      if k = k' then mapDelete rest k else (k', v') :: mapDelete rest k

/-- The error message produced by `Context.Get` for a missing key:
`fmt.Errorf("stack.Context: key %q does not exist", key)`. -/
def getErrMsg (k : String) : String :=
  "stack.Context: key \"" ++ k ++ "\" does not exist"

/-- `Context.Get` (value semantics; the lock discipline is modelled apart):
returns the stored value and a nil error when the key is present, and the
zero value together with the "does not exist" error when it is absent. -/
def Get (m : CtxMap) (k : String) : Val × Option String :=
  match mapLookup m k with
  | some v => (v, none)
  | none => (Val.vnil, some (getErrMsg k))

/-- A single mutation a middleware or handler performs on the request
context: `ctx.Put(k, v)` or `ctx.Delete(k)`. -/
inductive CtxOp where
  | put (k : String) (v : Val) : CtxOp
  | del (k : String) : CtxOp
deriving DecidableEq, Repr

/-- The key an operation touches. -/
def CtxOp.key : CtxOp → String
  | .put k _ => k
  | .del k => k

/-- Apply one context operation to a mapping. -/
def applyOp (m : CtxMap) : CtxOp → CtxMap
  | .put k v => mapAssign m k v
  | .del k => mapDelete m k

/-- Apply a sequence of context operations, first to last. -/
def applyOps (m : CtxMap) (ops : List CtxOp) : CtxMap :=
  ops.foldl applyOp m

/-- Deep embedding of a `chainMiddleware` value
(`func(*Context, http.Handler) http.Handler`): the handler it returns
performs `enterOps` on the shared context and writes `enterOut`, then
invokes the wrapped `next` handler when `callsNext` is set, and finally
writes `exitOut` on the unwind. -/
structure MW where
  enterOps : List CtxOp
  enterOut : List String
  callsNext : Bool
  exitOut : List String
deriving DecidableEq, Repr, Inhabited

/-- Deep embedding of a `chainHandler` value (`func(*Context) http.Handler`):
the terminal handler performs `hOps` on the context, writes `out`, and for
each key in `reads` writes the `%v` rendering of `ctx.Get(key)`'s value,
exactly as the test handlers do. -/
structure CtxHandler where
  hOps : List CtxOp
  out : List String
  reads : List String
deriving DecidableEq, Repr, Inhabited

/-- Deep embedding of a plain `http.Handler` (or of a
`func(http.ResponseWriter, *http.Request)`): it never touches the context
and only writes output. -/
structure PlainHandler where
  out : List String
deriving DecidableEq, Repr, Inhabited

/-- `adaptHandler`: wraps an `http.Handler` into a `chainHandler` that
ignores the context and returns the handler unchanged. -/
def adaptHandler (h : PlainHandler) : CtxHandler :=
  ⟨[], h.out, []⟩

/-- `adaptHandlerFunc`: `adaptHandler(http.HandlerFunc(fn))`; the
`http.HandlerFunc` conversion is observationally the identity. -/
def adaptHandlerFunc (fn : PlainHandler) : CtxHandler :=
  adaptHandler fn

/-- `adaptContextHandlerFunc`: wraps `func(ctx, w, r)` into a `chainHandler`
returning `http.HandlerFunc(func(w, r){ fn(ctx, w, r) })`; on the deep
embedding the wrapping is the identity on the description. -/
def adaptContextHandlerFunc (fn : CtxHandler) : CtxHandler :=
  fn

/-- Program state: the heap of `Context` objects (a `*Context` is an index
into `ctxs`) and the heap of slice backing arrays (an array's length is its
capacity). -/
structure St where
  ctxs : List CtxMap
  arrs : List (List MW)
deriving DecidableEq, Repr

/-- Dereference a `*Context`. -/
def getCtx (st : St) (r : Nat) : CtxMap :=
  st.ctxs.getD r []

/-- Overwrite the object a `*Context` points to. -/
def setCtx (st : St) (r : Nat) (m : CtxMap) : St :=
  { st with ctxs := st.ctxs.set r m }

/-- `NewContext()`: allocate a fresh empty `Context` and return the pointer
to it. -/
def NewContext (st : St) : Nat × St :=
  (st.ctxs.length, { st with ctxs := st.ctxs ++ [[]] })

/-- `Context.copy()`: allocate a fresh `Context` via `NewContext` and copy
the source's key/value pairs into it (values shared, mapping structure new).
The lock events the method performs are modelled apart. -/
def copyContext (st : St) (r : Nat) : Nat × St :=
  (st.ctxs.length, { st with ctxs := st.ctxs ++ [getCtx st r] })

/-- `Context.Put` through a pointer. -/
def hPut (st : St) (r : Nat) (k : String) (v : Val) : St :=
  setCtx st r (mapAssign (getCtx st r) k v)

/-- `Context.Delete` through a pointer. -/
def hDelete (st : St) (r : Nat) (k : String) : St :=
  setCtx st r (mapDelete (getCtx st r) k)

/-- Perform one context operation through a pointer. -/
def applyOpSt (st : St) (r : Nat) : CtxOp → St
  | .put k v => hPut st r k v
  | .del k => hDelete st r k

/-- Perform a sequence of context operations through one pointer. -/
def applyOpsSt (st : St) (r : Nat) (ops : List CtxOp) : St :=
  ops.foldl (fun s op => applyOpSt s r op) st

/-- Perform a sequence of context operations, each through its own target
pointer (models several call sites mutating several contexts). -/
def applySeq (st : St) (l : List (Nat × CtxOp)) : St :=
  l.foldl (fun s p => applyOpSt s p.1 p.2) st

/-- A Go slice of middleware: reference to a backing array plus length
(`none` is the nil slice; all slices in this program start at offset 0). -/
structure Slice where
  arr : Option Nat
  len : Nat
deriving DecidableEq, Repr

/-- The zero-value (nil) slice. -/
def nilSlice : Slice := ⟨none, 0⟩

/-- The capacity of a slice: the length of its backing array. -/
def sliceCap (st : St) (s : Slice) : Nat :=
  match s.arr with
  | none => 0
  | some i => (st.arrs.getD i []).length

/-- The elements a slice currently views. -/
def mwView (st : St) (s : Slice) : List MW :=
  match s.arr with
  | none => []
  | some i => (st.arrs.getD i []).take s.len

/-- Capacity of a newly allocated backing array: at least the needed length,
and at least double the old capacity (the gc runtime's growth rule for the
small slices this program builds). -/
def growCap (old need : Nat) : Nat :=
  max need (2 * old)

/-- Write `xs` into an array starting at position `i`, in place. -/
def writeAt (a : List MW) (i : Nat) (xs : List MW) : List MW :=
  a.take i ++ xs ++ a.drop (i + xs.length)

/-- Go's `append(s, xs...)` for middleware slices, per the language
specification: if the capacity suffices the backing array is re-used and the
new elements are written in place after the current length; otherwise a new,
sufficiently large array is allocated holding the old elements followed by
the new ones. -/
def sliceAppend (st : St) (s : Slice) (xs : List MW) : Slice × St :=
  let need := s.len + xs.length
  if need ≤ sliceCap st s then
    match s.arr with
    | none => (s, st)
    | some i =>
        (⟨some i, need⟩,
         { st with arrs := st.arrs.set i (writeAt (st.arrs.getD i []) s.len xs) })
  else
    (⟨some st.arrs.length, need⟩,
     { st with
        arrs := st.arrs ++
          [(match s.arr with
            | none => []
            | some i => (st.arrs.getD i []).take s.len) ++ xs ++
           List.replicate (growCap (sliceCap st s) need - need) default] })

/-- An open `Chain`: middleware slice plus base context pointer (the `h`
field of the Go struct is nil until the chain is closed, so it is omitted
from the open form). -/
structure Chain where
  mws : Slice
  baseCtx : Nat
deriving DecidableEq, Repr

/-- `Init(ctx)`: a chain seeded with a caller-supplied base context and the
nil middleware slice. -/
def Init (r : Nat) : Chain :=
  ⟨nilSlice, r⟩

/-- `Chain.Append`: `c.mws = append(c.mws, mws...); return c` — the receiver
is a value copy, and the append follows Go slice semantics. -/
def Append (c : Chain) (ms : List MW) (st : St) : Chain × St :=
  let p := sliceAppend st c.mws ms
  (⟨p.1, c.baseCtx⟩, p.2)

/-- `New(mws...)`: `Init(NewContext()).Append(mws...)`. -/
def New (ms : List MW) (st : St) : Chain × St :=
  let p := NewContext st
  Append (Init p.1) ms p.2

/-- A `closedChain`: the same three fields as `Chain` with the terminal
handler set. -/
structure ClosedChain where
  mws : Slice
  h : CtxHandler
  baseCtx : Nat
deriving DecidableEq, Repr

/-- `Chain.Then`: set `c.h = adaptContextHandlerFunc(chf)` on the value copy
and convert to `closedChain`. -/
def Then (c : Chain) (chf : CtxHandler) : ClosedChain :=
  ⟨c.mws, adaptContextHandlerFunc chf, c.baseCtx⟩

/-- `Chain.ThenHandler`: set `c.h = adaptHandler(h)` on the value copy. -/
def ThenHandler (c : Chain) (h : PlainHandler) : ClosedChain :=
  ⟨c.mws, adaptHandler h, c.baseCtx⟩

/-- `Chain.ThenHandlerFunc`: set `c.h = adaptHandlerFunc(fn)` on the value
copy. -/
def ThenHandlerFunc (c : Chain) (fn : PlainHandler) : ClosedChain :=
  ⟨c.mws, adaptHandlerFunc fn, c.baseCtx⟩

/-- `Chain.ThenChainHandler`: set `c.h = ch` on the value copy. -/
def ThenChainHandler (c : Chain) (ch : CtxHandler) : ClosedChain :=
  ⟨c.mws, ch, c.baseCtx⟩

/-- The `http.Handler` values produced while `ServeHTTP` folds the chain:
either the terminal handler applied to the request context, or a middleware
wrapping of an inner handler, both capturing the request context pointer. -/
inductive HNode where
  | term (h : CtxHandler) (r : Nat) : HNode
  | wrap (m : MW) (r : Nat) (next : HNode) : HNode
deriving DecidableEq, Repr

/-- Run a terminal handler on a mapping: perform its context operations,
then emit its fixed output followed by the rendered `Get` of each read
key. -/
def runTerm (h : CtxHandler) (m : CtxMap) : List String × CtxMap :=
  let m2 := applyOps m h.hOps
  (h.out ++ h.reads.map (fun k => renderVal (Get m2 k).1), m2)

/-- Invoke a built handler (`final.ServeHTTP(w, r)`): the output written to
the response plus the resulting state. -/
def invokeH : HNode → St → List String × St
  | .term h r, st =>
      let p := runTerm h (getCtx st r)
      (p.1, setCtx st r p.2)
  | .wrap m r next, st =>
      let st1 := applyOpsSt st r m.enterOps
      if m.callsNext then
        let p := invokeH next st1
        (m.enterOut ++ p.1 ++ m.exitOut, p.2)
      else
        (m.enterOut ++ m.exitOut, st1)

/-- The loop `final := cc.h(ctx); for i := len(cc.mws)-1; i >= 0; i-- {
final = cc.mws[i](ctx, final) }`: a left fold over the reversed middleware
list, every layer receiving the same request context pointer. -/
def buildFinal (ms : List MW) (r : Nat) (h : CtxHandler) : HNode :=
  ms.reverse.foldl (fun acc m => HNode.wrap m r acc) (HNode.term h r)

/-- `closedChain.ServeHTTP`: copy the base context, build the final handler
from the middleware the slice views at invocation time, and invoke it. -/
def serveHTTP (cc : ClosedChain) (st : St) : List String × St :=
  let p := copyContext st cc.baseCtx
  invokeH (buildFinal (mwView p.2 cc.mws) p.1 cc.h) p.2

/-- Pure reference runner: execute the middleware first to last on a plain
mapping (entry effects on the way in, exit output on the unwind), the
terminal handler innermost.  `invokeH ∘ buildFinal` is proved to simulate
it. -/
def runMWs : List MW → CtxHandler → CtxMap → List String × CtxMap
  | [], h, m => runTerm h m
  | mw :: rest, h, m =>
      let m1 := applyOps m mw.enterOps
      if mw.callsNext then
        let p := runMWs rest h m1
        (mw.enterOut ++ p.1 ++ mw.exitOut, p.2)
      else
        (mw.enterOut ++ mw.exitOut, m1)

/-- The mapping after every middleware's entry operations have run, first to
last. -/
def applyEnters (ms : List MW) (m : CtxMap) : CtxMap :=
  ms.foldl (fun acc mw => applyOps acc mw.enterOps) m

/-- Modelled from the spec: `BaseCtx()` on a closed chain returns an
independent copy of the chain's current base context (spec 4.3).  The
function itself is not under `src/`; only its tests survive there. -/
def BaseCtx (cc : ClosedChain) (st : St) : Nat × St :=
  copyContext st cc.baseCtx

/-- Modelled from the spec: `ReInit(newContext, closedChain)` returns a new
closed chain identical to the input except that its base context is replaced
by `newContext`, mutating nothing (spec 4.3).  Not under `src/`. -/
def ReInit (r : Nat) (cc : ClosedChain) : ClosedChain :=
  ⟨cc.mws, cc.h, r⟩

/-- Modelled from the spec: `Inject(closedChain, key, value)` composes
`BaseCtx` + `Put` + `ReInit` — copy the base context, set one key on the
copy, and rebase the chain onto it (spec 4.3).  Not under `src/`. -/
def Inject (cc : ClosedChain) (k : String) (v : Val) (st : St) :
    ClosedChain × St :=
  let p := BaseCtx cc st
  (ReInit p.1 cc, hPut p.2 p.1 k v)

/-- Lock events a `Context` method performs on the instance's
`sync.RWMutex`, plus accesses to the protected mapping `c.m`. -/
inductive LockEv where
  | rlock : LockEv
  | runlock : LockEv
  | wlock : LockEv
  | wunlock : LockEv
  | access : LockEv
deriving DecidableEq, Repr

/-- `Context.Get`: `RLock()`, `defer RUnlock()`, read `c.m` — the deferred
unlock runs after the read, at return. -/
def getEvents : List LockEv :=
  [.rlock, .access, .runlock]

/-- Modelled from the spec: `Exists(key)` is a membership check whose read
phase takes the read lock (spec 4.1); the method body is not under `src/`
(only its test is). -/
def existsEvents : List LockEv :=
  [.rlock, .access, .runlock]

/-- `Context.Put`: `Lock()`, `defer Unlock()`, write `c.m`. -/
def putEvents : List LockEv :=
  [.wlock, .access, .wunlock]

/-- `Context.Delete`: `Lock()`, `defer Unlock()`, `delete(c.m, key)`. -/
def deleteEvents : List LockEv :=
  [.wlock, .access, .wunlock]

/-- `Context.copy` on a source holding `n` entries: `RLock()` immediately
followed by `RUnlock()` (the body has no `defer`), and only then the range
loop reading `c.m`, one access per entry. -/
def copyEvents (n : Nat) : List LockEv :=
  [.rlock, .runlock] ++ List.replicate n .access

/-- Checks that every access to the protected mapping happens while the
method still holds the instance's lock (depth of held locks positive). -/
def lockedThroughout : Nat → List LockEv → Bool
  | _, [] => true
  | d, .access :: t => decide (0 < d) && lockedThroughout d t
  | d, .rlock :: t => lockedThroughout (d + 1) t
  | d, .runlock :: t => lockedThroughout (d - 1) t
  | d, .wlock :: t => lockedThroughout (d + 1) t
  | d, .wunlock :: t => lockedThroughout (d - 1) t

/-! ### List helpers -/

theorem getD_set_self {α : Type _} (l : List α) (i : Nat) (a d : α)
    (h : i < l.length) : (l.set i a).getD i d = a := by
  induction l generalizing i with
  | nil => simp at h
  | cons x xs ih =>
    cases i with
    | zero => rfl
    | succ n => simpa using ih n (by simpa using h)

theorem getD_set_ne {α : Type _} (l : List α) (i j : Nat) (a d : α)
    (h : i ≠ j) : (l.set i a).getD j d = l.getD j d := by
  induction l generalizing i j with
  | nil => rfl
  | cons x xs ih =>
    cases i with
    | zero =>
      cases j with
      | zero => exact absurd rfl h
      | succ m => rfl
    | succ n =>
      cases j with
      | zero => rfl
      | succ m => simpa using ih n m (fun e => h (by rw [e]))

theorem set_getD_self {α : Type _} (l : List α) (i : Nat) (d : α)
    (h : i < l.length) : l.set i (l.getD i d) = l := by
  induction l generalizing i with
  | nil => rfl
  | cons x xs ih =>
    cases i with
    | zero => rfl
    | succ n => simpa using ih n (by simpa using h)

theorem getD_append_left {α : Type _} (l l2 : List α) (i : Nat) (d : α)
    (h : i < l.length) : (l ++ l2).getD i d = l.getD i d := by
  induction l generalizing i with
  | nil => simp at h
  | cons x xs ih =>
    cases i with
    | zero => rfl
    | succ n => simpa using ih n (by simpa using h)

theorem getD_concat_self {α : Type _} (l : List α) (x d : α) :
    (l ++ [x]).getD l.length d = x := by
  induction l with
  | nil => rfl
  | cons y ys ih => simpa using ih

theorem set_concat_self {α : Type _} (l : List α) (x y : α) :
    (l ++ [x]).set l.length y = l ++ [y] := by
  induction l with
  | nil => rfl
  | cons z zs ih => simpa [List.set] using ih

/-! ### Heap basics -/

theorem getCtx_setCtx_self (st : St) (r : Nat) (m : CtxMap)
    (h : r < st.ctxs.length) : getCtx (setCtx st r m) r = m :=
  getD_set_self _ _ _ _ h

theorem getCtx_setCtx_ne (st : St) (r r2 : Nat) (m : CtxMap)
    (h : r ≠ r2) : getCtx (setCtx st r m) r2 = getCtx st r2 :=
  getD_set_ne _ _ _ _ _ h

theorem setCtx_setCtx (st : St) (r : Nat) (m m2 : CtxMap) :
    setCtx (setCtx st r m) r m2 = setCtx st r m2 := by
  simp [setCtx, List.set_set]

theorem length_setCtx (st : St) (r : Nat) (m : CtxMap) :
    (setCtx st r m).ctxs.length = st.ctxs.length := by
  simp [setCtx]

theorem arrs_setCtx (st : St) (r : Nat) (m : CtxMap) :
    (setCtx st r m).arrs = st.arrs := rfl

theorem applyOpSt_eq (st : St) (r : Nat) (op : CtxOp) :
    applyOpSt st r op = setCtx st r (applyOp (getCtx st r) op) := by
  cases op <;> rfl

theorem applyOpsSt_eq (st : St) (r : Nat) (ops : List CtxOp)
    (h : r < st.ctxs.length) :
    applyOpsSt st r ops = setCtx st r (applyOps (getCtx st r) ops) := by
  induction ops generalizing st with
  | nil =>
    show st = setCtx st r (getCtx st r)
    rw [setCtx, getCtx, set_getD_self _ _ _ h]
  | cons op ops ih =>
    have h1 : applyOpsSt st r (op :: ops) = applyOpsSt (applyOpSt st r op) r ops := rfl
    rw [h1, applyOpSt_eq]
    have h2 : r < (setCtx st r (applyOp (getCtx st r) op)).ctxs.length := by
      rw [length_setCtx]; exact h
    rw [ih _ h2, getCtx_setCtx_self _ _ _ h, setCtx_setCtx]
    rfl

theorem length_applyOpsSt (st : St) (r : Nat) (ops : List CtxOp) :
    (applyOpsSt st r ops).ctxs.length = st.ctxs.length := by
  induction ops generalizing st with
  | nil => rfl
  | cons op ops ih =>
    have h1 : applyOpsSt st r (op :: ops) = applyOpsSt (applyOpSt st r op) r ops := rfl
    rw [h1, ih, applyOpSt_eq, length_setCtx]

/-! ### Simulation: invoking the folded handler runs the middleware in order
on the single request context -/

theorem buildFinal_cons (mw : MW) (ms : List MW) (r : Nat) (h : CtxHandler) :
    buildFinal (mw :: ms) r h = HNode.wrap mw r (buildFinal ms r h) := by
  simp [buildFinal, List.foldl_append]

theorem invokeH_buildFinal (ms : List MW) (h : CtxHandler) (r : Nat) (st : St)
    (hr : r < st.ctxs.length) :
    invokeH (buildFinal ms r h) st =
      ((runMWs ms h (getCtx st r)).1,
       setCtx st r (runMWs ms h (getCtx st r)).2) := by
  induction ms generalizing st with
  | nil => simp [buildFinal, invokeH, runMWs]
  | cons mw rest ih =>
    rw [buildFinal_cons]
    have hst1 : applyOpsSt st r mw.enterOps =
        setCtx st r (applyOps (getCtx st r) mw.enterOps) := applyOpsSt_eq _ _ _ hr
    by_cases hc : mw.callsNext
    · have hr1 : r < (applyOpsSt st r mw.enterOps).ctxs.length := by
        rw [length_applyOpsSt]; exact hr
      have hget : getCtx (applyOpsSt st r mw.enterOps) r =
          applyOps (getCtx st r) mw.enterOps := by
        rw [hst1]; exact getCtx_setCtx_self _ _ _ hr
      simp only [invokeH, hc, if_true, ih _ hr1, hget, runMWs]
      rw [hst1, setCtx_setCtx]
    · simp only [invokeH, hc, if_false, runMWs, hst1]
      simp [hc]

theorem mwView_arrs (st st2 : St) (s : Slice) (h : st.arrs = st2.arrs) :
    mwView st s = mwView st2 s := by
  cases hs : s.arr <;> simp [mwView, hs, h]

/-- Master description of `closedChain.ServeHTTP`: the invocation is exactly
`runMWs` over the middleware the slice views, started on a fresh copy of the
base context's mapping, the copy being appended to the heap; nothing else in
the state changes. -/
theorem serveHTTP_eq (cc : ClosedChain) (st : St) :
    serveHTTP cc st =
      ((runMWs (mwView st cc.mws) cc.h (getCtx st cc.baseCtx)).1,
       ⟨st.ctxs ++ [(runMWs (mwView st cc.mws) cc.h (getCtx st cc.baseCtx)).2],
        st.arrs⟩) := by
  have h1 : serveHTTP cc st =
      invokeH (buildFinal (mwView (⟨st.ctxs ++ [getCtx st cc.baseCtx], st.arrs⟩ : St) cc.mws)
        st.ctxs.length cc.h) ⟨st.ctxs ++ [getCtx st cc.baseCtx], st.arrs⟩ := rfl
  rw [h1, mwView_arrs (⟨st.ctxs ++ [getCtx st cc.baseCtx], st.arrs⟩ : St) st cc.mws rfl]
  rw [invokeH_buildFinal _ _ _ _ (by simp)]
  have h2 : getCtx (⟨st.ctxs ++ [getCtx st cc.baseCtx], st.arrs⟩ : St)
      st.ctxs.length = getCtx st cc.baseCtx := getD_concat_self _ _ _
  rw [h2]
  have h3 : ∀ m : CtxMap,
      setCtx (⟨st.ctxs ++ [getCtx st cc.baseCtx], st.arrs⟩ : St) st.ctxs.length m =
        ⟨st.ctxs ++ [m], st.arrs⟩ := by
    intro m
    simp [setCtx, set_concat_self]
  rw [h3]

/-! ### Ordered execution -/

theorem runMWs_order (ms : List MW) (h : CtxHandler) (m : CtxMap)
    (hc : ∀ mw ∈ ms, mw.callsNext = true) :
    runMWs ms h m =
      ((ms.map MW.enterOut).flatten ++ (runTerm h (applyEnters ms m)).1 ++
        ((ms.map MW.exitOut).reverse).flatten,
       (runTerm h (applyEnters ms m)).2) := by
  induction ms generalizing m with
  | nil => simp [runMWs, applyEnters]
  | cons mw rest ih =>
    have hmw : mw.callsNext = true := hc mw (by simp)
    have hrest : ∀ x ∈ rest, x.callsNext = true := fun x hx => hc x (by simp [hx])
    have happ : applyEnters (mw :: rest) m =
        applyEnters rest (applyOps m mw.enterOps) := rfl
    simp only [runMWs, hmw, if_true, ih _ hrest, happ]
    simp [List.append_assoc]

/-! ### Frame lemmas -/

theorem applySeq_frame (l : List (Nat × CtxOp)) (st : St) (i : Nat)
    (h : ∀ p ∈ l, p.1 ≠ i) :
    getCtx (applySeq st l) i = getCtx st i := by
  induction l generalizing st with
  | nil => rfl
  | cons p rest ih =>
    have h1 : p.1 ≠ i := h p (by simp)
    have h2 : ∀ q ∈ rest, q.1 ≠ i := fun q hq => h q (by simp [hq])
    have h3 : applySeq st (p :: rest) = applySeq (applyOpSt st p.1 p.2) rest := rfl
    rw [h3, ih _ h2, applyOpSt_eq, getCtx_setCtx_ne _ _ _ _ h1]

/-! ### Key-avoidance lemmas for rebasing -/

theorem mapLookup_mapAssign_self (m : CtxMap) (k : String) (v : Val) :
    mapLookup (mapAssign m k v) k = some v := by
  induction m with
  | nil => simp [mapAssign, mapLookup]
  | cons p rest ih =>
    obtain ⟨k', v'⟩ := p
    by_cases h : k = k' <;> simp [mapAssign, mapLookup, h, ih]

theorem mapLookup_mapAssign_ne (m : CtxMap) (k k2 : String) (v : Val)
    (h : k ≠ k2) : mapLookup (mapAssign m k2 v) k = mapLookup m k := by
  induction m with
  | nil => simp [mapAssign, mapLookup, h]
  | cons p rest ih =>
    obtain ⟨k', v'⟩ := p
    by_cases h2 : k2 = k'
    · subst h2
      simp [mapAssign, mapLookup, h, ih]
    · simp [mapAssign, mapLookup, h2, ih]

theorem mapLookup_mapDelete_ne (m : CtxMap) (k k2 : String)
    (h : k ≠ k2) : mapLookup (mapDelete m k2) k = mapLookup m k := by
  induction m with
  | nil => simp [mapDelete]
  | cons p rest ih =>
    obtain ⟨k', v'⟩ := p
    by_cases h2 : k2 = k'
    · subst h2
      simp [mapDelete, mapLookup, h, ih]
    · simp [mapDelete, h2, mapLookup, ih]

theorem mapLookup_applyOp_ne (m : CtxMap) (op : CtxOp) (k : String)
    (h : op.key ≠ k) : mapLookup (applyOp m op) k = mapLookup m k := by
  cases op with
  | put k2 v => exact mapLookup_mapAssign_ne _ _ _ _ (fun e => h (by simp [CtxOp.key, e.symm]))
  | del k2 => exact mapLookup_mapDelete_ne _ _ _ (fun e => h (by simp [CtxOp.key, e.symm]))

theorem mapLookup_applyOps_ne (m : CtxMap) (ops : List CtxOp) (k : String)
    (h : ∀ op ∈ ops, op.key ≠ k) :
    mapLookup (applyOps m ops) k = mapLookup m k := by
  induction ops generalizing m with
  | nil => rfl
  | cons op ops ih =>
    have h1 : applyOps m (op :: ops) = applyOps (applyOp m op) ops := rfl
    rw [h1, ih _ (fun q hq => h q (by simp [hq])),
      mapLookup_applyOp_ne _ _ _ (h op (by simp))]

theorem mapLookup_applyEnters_ne (ms : List MW) (m : CtxMap) (k : String)
    (h : ∀ mw ∈ ms, ∀ op ∈ mw.enterOps, op.key ≠ k) :
    mapLookup (applyEnters ms m) k = mapLookup m k := by
  induction ms generalizing m with
  | nil => rfl
  | cons mw rest ih =>
    have h1 : applyEnters (mw :: rest) m =
        applyEnters rest (applyOps m mw.enterOps) := rfl
    rw [h1, ih _ (fun q hq => h q (by simp [hq])),
      mapLookup_applyOps_ne _ _ _ (h mw (by simp))]

/-! ### Slice well-formedness and append lemmas -/

/-- A slice the program can actually hold: its backing array exists and its
length does not exceed the capacity (the nil slice has length 0). -/
def wfSlice (st : St) (s : Slice) : Bool :=
  match s.arr with
  | none => s.len == 0
  | some i => decide (i < st.arrs.length) && decide (s.len ≤ (st.arrs.getD i []).length)

theorem take_len_append {α : Type _} (l1 l2 : List α) :
    (l1 ++ l2).take l1.length = l1 := by
  induction l1 with
  | nil => simp
  | cons x xs ih => simp [ih]

theorem length_take_of_le {α : Type _} (l : List α) (n : Nat) (h : n ≤ l.length) :
    (l.take n).length = n := by
  simp [List.length_take, Nat.min_eq_left h]

theorem take_writeAt (a : List MW) (i : Nat) (xs : List MW) (h : i ≤ a.length) :
    (writeAt a i xs).take i = a.take i := by
  have hl : (a.take i).length = i := length_take_of_le _ _ h
  calc (writeAt a i xs).take i
      = ((a.take i) ++ (xs ++ a.drop (i + xs.length))).take (a.take i).length := by
        rw [writeAt, hl, List.append_assoc]
    _ = a.take i := take_len_append _ _

theorem take_prefix_append {α : Type _} (p xs rest : List α) (n : Nat)
    (hp : p.length = n) : (p ++ xs ++ rest).take (n + xs.length) = p ++ xs := by
  calc (p ++ xs ++ rest).take (n + xs.length)
      = ((p ++ xs) ++ rest).take (p ++ xs).length := by
        rw [List.append_assoc, ← List.append_assoc p xs rest]
        congr 1
        simp [hp]
    _ = p ++ xs := take_len_append _ _

theorem sliceAppend_ctxs (st : St) (s : Slice) (ms : List MW) :
    (sliceAppend st s ms).2.ctxs = st.ctxs := by
  rw [sliceAppend]
  split
  · cases s.arr <;> rfl
  · rfl

theorem getCtx_of_ctxs_eq (st st2 : St) (r : Nat) (h : st.ctxs = st2.ctxs) :
    getCtx st r = getCtx st2 r := by
  simp [getCtx, h]

theorem mwView_sliceAppend_old (st : St) (s : Slice) (ms : List MW)
    (hwf : wfSlice st s = true) :
    mwView (sliceAppend st s ms).2 s = mwView st s := by
  cases hs : s.arr with
  | none => simp [mwView, hs]
  | some i =>
    have hwf2 : i < st.arrs.length ∧ s.len ≤ (st.arrs.getD i []).length := by
      simpa [wfSlice, hs] using hwf
    rw [sliceAppend]
    split
    · rw [hs]
      simp only [mwView, hs]
      rw [getD_set_self _ _ _ _ hwf2.1, take_writeAt _ _ _ hwf2.2]
    · simp only [mwView, hs]
      rw [getD_append_left _ _ _ _ hwf2.1]

theorem mwView_sliceAppend_new (st : St) (s : Slice) (ms : List MW)
    (hwf : wfSlice st s = true) :
    mwView (sliceAppend st s ms).2 (sliceAppend st s ms).1 =
      mwView st s ++ ms := by
  cases hs : s.arr with
  | none =>
    have hlen : s.len = 0 := by simpa [wfSlice, hs] using hwf
    have hcap : sliceCap st s = 0 := by simp [sliceCap, hs]
    rw [sliceAppend]
    split
    · rename_i hle
      rw [hcap, hlen] at hle
      have hms : ms = [] := by
        cases ms with
        | nil => rfl
        | cons x xs => simp at hle
      rw [hs]
      simp [mwView, hs, hms]
    · simp only [mwView, hs, hcap, hlen]
      rw [getD_concat_self]
      simp [growCap]
  | some i =>
    have hwf2 : i < st.arrs.length ∧ s.len ≤ (st.arrs.getD i []).length := by
      simpa [wfSlice, hs] using hwf
    rw [sliceAppend]
    split
    · rw [hs]
      simp only [mwView, hs]
      rw [getD_set_self _ _ _ _ hwf2.1, writeAt]
      exact take_prefix_append _ _ _ _ (length_take_of_le _ _ hwf2.2)
    · simp only [mwView, hs]
      rw [getD_concat_self]
      exact take_prefix_append _ _ _ _ (length_take_of_le _ _ hwf2.2)

/-! ### Claim theorems -/

/-- C5: `Context.Get` returns the stored value with a nil error exactly when
the key is present in the mapping (even when the stored value is the untyped
nil), and otherwise its error is non-nil and is exactly the "does not exist"
message, which spells out the missing key; no other outcome is possible. -/
theorem Get_found_iff (m : CtxMap) (k : String) :
    (∀ v : Val, Get m k = (v, none) ↔ mapLookup m k = some v) ∧
    ((Get m k).2 = some (getErrMsg k) ↔ mapLookup m k = none) ∧
    ((Get m k).2 = none ∨ (Get m k).2 = some (getErrMsg k)) ∧
    (∃ pre post : String, getErrMsg k = pre ++ k ++ post) := by
  refine ⟨?_, ?_, ?_, ⟨"stack.Context: key \"", "\" does not exist", rfl⟩⟩ <;>
    cases hl : mapLookup m k <;> simp [Get, hl]

/-- Witness for C5 at a concrete mapping: a present key and a missing key. -/
theorem Get_found_iff_witness :
    (Get [("flip", Val.vstr "flop")] "flip" = (Val.vstr "flop", none) ↔
      mapLookup [("flip", Val.vstr "flop")] "flip" = some (Val.vstr "flop")) ∧
    ((Get [("flip", Val.vstr "flop")] "wibble").2 = some (getErrMsg "wibble") ↔
      mapLookup [("flip", Val.vstr "flop")] "wibble" = none) :=
  ⟨(Get_found_iff [("flip", Val.vstr "flop")] "flip").1 (Val.vstr "flop"),
   (Get_found_iff [("flip", Val.vstr "flop")] "wibble").2.1⟩

/-- C8 (refuted on the code): the lock-event traces of the `Context`
methods.  `Get`, `Exists`, `Put` and `Delete` hold the instance's lock
across their access to the mapping, but `copy` performs `RLock()`
immediately followed by `RUnlock()` — there is no `defer` — and then
iterates the source mapping, so on any source with at least one entry the
iteration runs with no lock held. -/
theorem copy_lock_not_held_during_iteration :
    lockedThroughout 0 getEvents = true ∧
    lockedThroughout 0 existsEvents = true ∧
    lockedThroughout 0 putEvents = true ∧
    lockedThroughout 0 deleteEvents = true ∧
    lockedThroughout 0 (copyEvents 1) = false := by
  decide

/-- C9: `New(ms)` is exactly `Init(NewContext()).Append(ms)`; the chain it
returns carries a freshly allocated base context that is empty, and its
slice views exactly the supplied middleware sequence. -/
theorem New_eq_init_append (ms : List MW) (st : St) :
    New ms st = Append (Init (NewContext st).1) ms (NewContext st).2 ∧
    (New ms st).1.baseCtx = st.ctxs.length ∧
    getCtx (New ms st).2 (New ms st).1.baseCtx = [] ∧
    mwView (New ms st).2 (New ms st).1.mws = ms := by
  refine ⟨rfl, rfl, ?_, ?_⟩
  · show ((sliceAppend (NewContext st).2 nilSlice ms).2).ctxs.getD
      st.ctxs.length [] = []
    rw [sliceAppend_ctxs]
    exact getD_concat_self _ _ _
  · have h2 := mwView_sliceAppend_new (NewContext st).2 nilSlice ms rfl
    have h3 : mwView (NewContext st).2 nilSlice = [] := rfl
    rw [h3] at h2
    simpa using h2

/-- C10: each of the four closing operations returns a closed chain carrying
exactly the receiver's middleware slice and base context, setting only the
terminal-handler field through the corresponding adapter; the receiver is a
value copy, so the open chain can still be appended to (with unchanged
meaning) or closed again with a different handler, the two closings
differing only in the handler field. -/
theorem then_variants_preserve_chain (c : Chain) (chf ch : CtxHandler)
    (ph pf : PlainHandler) :
    Then c chf = ⟨c.mws, adaptContextHandlerFunc chf, c.baseCtx⟩ ∧
    ThenHandler c ph = ⟨c.mws, adaptHandler ph, c.baseCtx⟩ ∧
    ThenHandlerFunc c pf = ⟨c.mws, adaptHandlerFunc pf, c.baseCtx⟩ ∧
    ThenChainHandler c ch = ⟨c.mws, ch, c.baseCtx⟩ ∧
    (Then c chf).mws = (ThenChainHandler c ch).mws ∧
    (Then c chf).baseCtx = (ThenChainHandler c ch).baseCtx ∧
    (∀ (ms : List MW) (st : St),
      Append c ms st = Append ⟨(Then c chf).mws, (Then c chf).baseCtx⟩ ms st) :=
  ⟨rfl, rfl, rfl, rfl, rfl, rfl, fun _ _ => rfl⟩

/-- A middleware that writes one tag on entry and always delegates. -/
def mwTag (s : String) : MW := ⟨[], [s], true, []⟩

/-- The chain `New(m1, m2)` in an empty state. -/
def c1New : Chain × St := New [mwTag "m1>", mwTag "m2>"] ⟨[], []⟩

/-- `c := New(m1, m2).Append(m3)`: its slice has length 3 but capacity 4. -/
def c1C : Chain × St := Append c1New.1 [mwTag "m3>"] c1New.2

/-- `a := c.Append(x)`: fits in the spare capacity, written in place. -/
def c1A : Chain × St := Append c1C.1 [mwTag "x>"] c1C.2

/-- `b := c.Append(y)`: also fits, overwriting the slot `a` views. -/
def c1B : Chain × St := Append c1C.1 [mwTag "y>"] c1A.2

/-- C1 (refuted on the code): `Append` does not copy the backing array, so
two appends to the same base chain share storage once the slice has spare
capacity.  After `b := c.Append(y)` is created, the earlier chain
`a := c.Append(x)` views `y` in its last slot: closing and invoking `a`
exhibits `c`'s middleware followed by `y` — an element of `b`'s suffix —
and `x` appears nowhere. -/
theorem append_shared_backing_interference :
    mwView c1B.2 c1A.1.mws =
      [mwTag "m1>", mwTag "m2>", mwTag "m3>", mwTag "y>"] ∧
    (serveHTTP (Then c1A.1 ⟨[], ["h"], []⟩) c1B.2).1 =
      ["m1>", "m2>", "m3>", "y>", "h"] ∧
    mwTag "x>" ∉ mwView c1B.2 c1A.1.mws := by
  refine ⟨rfl, rfl, by decide⟩

/-- The observable output of an invocation depends only on the middleware
arrays and the base context's mapping. -/
theorem serveHTTP_out_congr (cc : ClosedChain) (st2 st : St)
    (harr : st2.arrs = st.arrs)
    (hbase : getCtx st2 cc.baseCtx = getCtx st cc.baseCtx) :
    (serveHTTP cc st2).1 = (serveHTTP cc st).1 := by
  rw [serveHTTP_eq, serveHTTP_eq, mwView_arrs st2 st cc.mws harr, hbase]

/-- C2: an invocation works on a fresh copy of the base context: after
`ServeHTTP` the chain's base context mapping — indeed every pre-existing
context object — is unchanged, and a second invocation of the same closed
chain observes none of the first invocation's mutations: it produces the
same output. -/
theorem serveHTTP_base_context_isolation (cc : ClosedChain) (st : St)
    (hb : cc.baseCtx < st.ctxs.length) :
    getCtx (serveHTTP cc st).2 cc.baseCtx = getCtx st cc.baseCtx ∧
    (∀ i, i < st.ctxs.length → getCtx (serveHTTP cc st).2 i = getCtx st i) ∧
    (serveHTTP cc (serveHTTP cc st).2).1 = (serveHTTP cc st).1 := by
  have h1 : getCtx (serveHTTP cc st).2 cc.baseCtx = getCtx st cc.baseCtx := by
    rw [serveHTTP_eq]
    exact getD_append_left _ _ _ _ hb
  refine ⟨h1, ?_, ?_⟩
  · intro i hi
    rw [serveHTTP_eq]
    exact getD_append_left _ _ _ _ hi
  · exact serveHTTP_out_congr cc (serveHTTP cc st).2 st (by rw [serveHTTP_eq]) h1

/-- Witness for C2: a chain whose handler writes into the request context,
invoked on a one-context heap. -/
theorem serveHTTP_base_context_isolation_witness :
    (0 : Nat) < (⟨[[("flip", Val.vstr "flop")]], []⟩ : St).ctxs.length ∧
    getCtx (serveHTTP ⟨nilSlice, ⟨[CtxOp.put "bish" (Val.vstr "bash")], ["h"], ["bish"]⟩, 0⟩
        ⟨[[("flip", Val.vstr "flop")]], []⟩).2 0 =
      getCtx (⟨[[("flip", Val.vstr "flop")]], []⟩ : St) 0 ∧
    (serveHTTP ⟨nilSlice, ⟨[CtxOp.put "bish" (Val.vstr "bash")], ["h"], ["bish"]⟩, 0⟩
        (serveHTTP ⟨nilSlice, ⟨[CtxOp.put "bish" (Val.vstr "bash")], ["h"], ["bish"]⟩, 0⟩
          ⟨[[("flip", Val.vstr "flop")]], []⟩).2).1 =
      (serveHTTP ⟨nilSlice, ⟨[CtxOp.put "bish" (Val.vstr "bash")], ["h"], ["bish"]⟩, 0⟩
        ⟨[[("flip", Val.vstr "flop")]], []⟩).1 :=
  ⟨by decide,
   (serveHTTP_base_context_isolation
     ⟨nilSlice, ⟨[CtxOp.put "bish" (Val.vstr "bash")], ["h"], ["bish"]⟩, 0⟩
     ⟨[[("flip", Val.vstr "flop")]], []⟩ (by decide)).1,
   (serveHTTP_base_context_isolation
     ⟨nilSlice, ⟨[CtxOp.put "bish" (Val.vstr "bash")], ["h"], ["bish"]⟩, 0⟩
     ⟨[[("flip", Val.vstr "flop")]], []⟩ (by decide)).2.2⟩

/-- C3: invocation builds the final handler by folding the middleware from
last to first around the terminal handler, every layer receiving the same
request context, so the entry-side output appears in sequence order, then
the terminal handler's output (computed on the context after all entry
operations), then the exit-side output in reverse order. -/
theorem serveHTTP_execution_order (cc : ClosedChain) (st : St)
    (hc : ∀ mw ∈ mwView st cc.mws, mw.callsNext = true) :
    (serveHTTP cc st).1 =
      ((mwView st cc.mws).map MW.enterOut).flatten ++
        (runTerm cc.h (applyEnters (mwView st cc.mws) (getCtx st cc.baseCtx))).1 ++
        (((mwView st cc.mws).map MW.exitOut).reverse).flatten ∧
    (∀ (ms : List MW) (r : Nat) (h : CtxHandler),
      buildFinal ms r h =
        ms.foldr (fun m acc => HNode.wrap m r acc) (HNode.term h r)) := by
  constructor
  · rw [serveHTTP_eq, runMWs_order _ _ _ hc]
  · intro ms r h
    rw [buildFinal, List.foldl_reverse]

/-- Witness for C3: two tagged middleware around a writing handler. -/
theorem serveHTTP_execution_order_witness :
    (serveHTTP ⟨⟨some 0, 2⟩, ⟨[], ["h"], []⟩, 0⟩
        ⟨[[]], [[mwTag "m1>", mwTag "m2>"]]⟩).1 =
      ((mwView (⟨[[]], [[mwTag "m1>", mwTag "m2>"]]⟩ : St) (⟨some 0, 2⟩ : Slice)).map
          MW.enterOut).flatten ++
        (runTerm ⟨[], ["h"], []⟩
          (applyEnters (mwView (⟨[[]], [[mwTag "m1>", mwTag "m2>"]]⟩ : St) (⟨some 0, 2⟩ : Slice))
            (getCtx (⟨[[]], [[mwTag "m1>", mwTag "m2>"]]⟩ : St) 0))).1 ++
        (((mwView (⟨[[]], [[mwTag "m1>", mwTag "m2>"]]⟩ : St) (⟨some 0, 2⟩ : Slice)).map
          MW.exitOut).reverse).flatten :=
  (serveHTTP_execution_order ⟨⟨some 0, 2⟩, ⟨[], ["h"], []⟩, 0⟩
    ⟨[[]], [[mwTag "m1>", mwTag "m2>"]]⟩ (by decide)).1

/-- C4: `Context.copy` allocates a new context holding the same mapping as
the source at the moment of the copy, and afterwards any sequence of `Put`
or `Delete` operations that touches only the copy leaves the source's
mapping unchanged, and any sequence that touches only the source leaves the
copy's mapping unchanged. -/
theorem copyContext_independence (st : St) (r : Nat)
    (hr : r < st.ctxs.length) :
    (copyContext st r).1 ≠ r ∧
    getCtx (copyContext st r).2 (copyContext st r).1 = getCtx st r ∧
    getCtx (copyContext st r).2 r = getCtx st r ∧
    (∀ l : List (Nat × CtxOp), (∀ p ∈ l, p.1 ≠ r) →
      getCtx (applySeq (copyContext st r).2 l) r = getCtx st r) ∧
    (∀ l : List (Nat × CtxOp), (∀ p ∈ l, p.1 ≠ (copyContext st r).1) →
      getCtx (applySeq (copyContext st r).2 l) (copyContext st r).1 =
        getCtx st r) := by
  refine ⟨Nat.ne_of_gt hr, getD_concat_self _ _ _,
    getD_append_left _ _ _ _ hr, ?_, ?_⟩
  · intro l hl
    rw [applySeq_frame _ _ _ hl]
    exact getD_append_left _ _ _ _ hr
  · intro l hl
    rw [applySeq_frame _ _ _ hl]
    exact getD_concat_self _ _ _

/-- Witness for C4: copying a one-entry context, then a `Put` on the copy
(which leaves the source unchanged) and a `Put` on the source (which leaves
the copy unchanged). -/
theorem copyContext_independence_witness :
    getCtx (copyContext (⟨[[("flip", Val.vstr "flop")]], []⟩ : St) 0).2
        (copyContext (⟨[[("flip", Val.vstr "flop")]], []⟩ : St) 0).1 =
      getCtx (⟨[[("flip", Val.vstr "flop")]], []⟩ : St) 0 ∧
    getCtx (applySeq (copyContext (⟨[[("flip", Val.vstr "flop")]], []⟩ : St) 0).2
        [(1, CtxOp.put "bish" (Val.vstr "bash"))]) 0 =
      getCtx (⟨[[("flip", Val.vstr "flop")]], []⟩ : St) 0 ∧
    getCtx (applySeq (copyContext (⟨[[("flip", Val.vstr "flop")]], []⟩ : St) 0).2
        [(0, CtxOp.put "bish" (Val.vstr "bash"))])
        (copyContext (⟨[[("flip", Val.vstr "flop")]], []⟩ : St) 0).1 =
      getCtx (⟨[[("flip", Val.vstr "flop")]], []⟩ : St) 0 :=
  ⟨(copyContext_independence ⟨[[("flip", Val.vstr "flop")]], []⟩ 0 (by decide)).2.1,
   (copyContext_independence ⟨[[("flip", Val.vstr "flop")]], []⟩ 0
     (by decide)).2.2.2.1 [(1, CtxOp.put "bish" (Val.vstr "bash"))] (by decide),
   (copyContext_independence ⟨[[("flip", Val.vstr "flop")]], []⟩ 0
     (by decide)).2.2.2.2 [(0, CtxOp.put "bish" (Val.vstr "bash"))] (by decide)⟩

/-- C6: appending to a chain leaves the chain itself intact: its slice still
views its original middleware, no base context changes, and closing and
invoking it afterwards produces the same output as before the append, while
the returned chain views the receiver's middleware followed by the appended
ones and invoking it runs exactly that concatenation. -/
theorem Append_does_not_mutate_receiver (c : Chain) (ms : List MW) (st : St)
    (hwf : wfSlice st c.mws = true) :
    mwView (Append c ms st).2 c.mws = mwView st c.mws ∧
    (Append c ms st).2.ctxs = st.ctxs ∧
    (Append c ms st).1.baseCtx = c.baseCtx ∧
    mwView (Append c ms st).2 (Append c ms st).1.mws = mwView st c.mws ++ ms ∧
    (∀ h : CtxHandler, (serveHTTP (Then c h) (Append c ms st).2).1 =
      (serveHTTP (Then c h) st).1) ∧
    (∀ h : CtxHandler, (serveHTTP (Then (Append c ms st).1 h) (Append c ms st).2).1 =
      (runMWs (mwView st c.mws ++ ms) (adaptContextHandlerFunc h)
        (getCtx st c.baseCtx)).1) := by
  have hold := mwView_sliceAppend_old st c.mws ms hwf
  have hnew := mwView_sliceAppend_new st c.mws ms hwf
  have hctxs := sliceAppend_ctxs st c.mws ms
  refine ⟨hold, hctxs, rfl, hnew, ?_, ?_⟩
  · intro h
    rw [serveHTTP_eq (Then c h) (Append c ms st).2, serveHTTP_eq (Then c h) st]
    show (runMWs (mwView (sliceAppend st c.mws ms).2 c.mws)
        (adaptContextHandlerFunc h) (getCtx (sliceAppend st c.mws ms).2 c.baseCtx)).1 =
      (runMWs (mwView st c.mws) (adaptContextHandlerFunc h) (getCtx st c.baseCtx)).1
    rw [hold, getCtx_of_ctxs_eq _ st _ hctxs]
  · intro h
    rw [serveHTTP_eq]
    show (runMWs (mwView (sliceAppend st c.mws ms).2 (sliceAppend st c.mws ms).1)
        (adaptContextHandlerFunc h) (getCtx (sliceAppend st c.mws ms).2 c.baseCtx)).1 =
      (runMWs (mwView st c.mws ++ ms) (adaptContextHandlerFunc h)
        (getCtx st c.baseCtx)).1
    rw [hnew, getCtx_of_ctxs_eq _ st _ hctxs]

/-- Witness for C6: a one-middleware chain appended with one middleware. -/
theorem Append_does_not_mutate_receiver_witness :
    mwView (Append ⟨⟨some 0, 1⟩, 0⟩ [mwTag "m2>"] ⟨[[]], [[mwTag "m1>"]]⟩).2
        (⟨some 0, 1⟩ : Slice) =
      mwView (⟨[[]], [[mwTag "m1>"]]⟩ : St) (⟨some 0, 1⟩ : Slice) ∧
    mwView (Append ⟨⟨some 0, 1⟩, 0⟩ [mwTag "m2>"] ⟨[[]], [[mwTag "m1>"]]⟩).2
        (Append ⟨⟨some 0, 1⟩, 0⟩ [mwTag "m2>"] ⟨[[]], [[mwTag "m1>"]]⟩).1.mws =
      mwView (⟨[[]], [[mwTag "m1>"]]⟩ : St) (⟨some 0, 1⟩ : Slice) ++ [mwTag "m2>"] ∧
    (serveHTTP (Then ⟨⟨some 0, 1⟩, 0⟩ ⟨[], ["h"], []⟩)
        (Append ⟨⟨some 0, 1⟩, 0⟩ [mwTag "m2>"] ⟨[[]], [[mwTag "m1>"]]⟩).2).1 =
      (serveHTTP (Then ⟨⟨some 0, 1⟩, 0⟩ ⟨[], ["h"], []⟩) ⟨[[]], [[mwTag "m1>"]]⟩).1 :=
  ⟨(Append_does_not_mutate_receiver ⟨⟨some 0, 1⟩, 0⟩ [mwTag "m2>"]
      ⟨[[]], [[mwTag "m1>"]]⟩ (by decide)).1,
   (Append_does_not_mutate_receiver ⟨⟨some 0, 1⟩, 0⟩ [mwTag "m2>"]
      ⟨[[]], [[mwTag "m1>"]]⟩ (by decide)).2.2.2.1,
   (Append_does_not_mutate_receiver ⟨⟨some 0, 1⟩, 0⟩ [mwTag "m2>"]
      ⟨[[]], [[mwTag "m1>"]]⟩ (by decide)).2.2.2.2.1 ⟨[], ["h"], []⟩⟩

/-- C7 (`BaseCtx`/`ReInit`/`Inject` modelled from the spec, which is the
only place they are defined): `Inject` keeps the middleware and handler,
copies the base context and binds the key only on the copy — the original
chain's base context object is untouched — and when the chain's middleware
do not touch the key and its handler reads it, invoking the injected chain
renders the injected value while invoking the original chain still renders
the key absent; `ReInit` replaces exactly the base-context field. -/
theorem Inject_ReInit_rebase_isolation (cc : ClosedChain) (k : String)
    (v : Val) (st : St) (hb : cc.baseCtx < st.ctxs.length)
    (habs : mapLookup (getCtx st cc.baseCtx) k = none)
    (hh : cc.h = ⟨[], [], [k]⟩)
    (hmv : ∀ mw ∈ mwView st cc.mws, mw.callsNext = true ∧
      ∀ op ∈ mw.enterOps, CtxOp.key op ≠ k) :
    (Inject cc k v st).1.mws = cc.mws ∧
    (Inject cc k v st).1.h = cc.h ∧
    getCtx (Inject cc k v st).2 cc.baseCtx = getCtx st cc.baseCtx ∧
    mapLookup (getCtx (Inject cc k v st).2 (Inject cc k v st).1.baseCtx) k =
      some v ∧
    (∀ r : Nat, ReInit r cc = ⟨cc.mws, cc.h, r⟩) ∧
    (serveHTTP (Inject cc k v st).1 (Inject cc k v st).2).1 =
      ((mwView st cc.mws).map MW.enterOut).flatten ++ [renderVal v] ++
        (((mwView st cc.mws).map MW.exitOut).reverse).flatten ∧
    (serveHTTP cc (Inject cc k v st).2).1 =
      ((mwView st cc.mws).map MW.enterOut).flatten ++ ["<nil>"] ++
        (((mwView st cc.mws).map MW.exitOut).reverse).flatten := by
  have hst2 : (Inject cc k v st).2 =
      ⟨st.ctxs ++ [mapAssign (getCtx st cc.baseCtx) k v], st.arrs⟩ := by
    show hPut (copyContext st cc.baseCtx).2 st.ctxs.length k v = _
    rw [hPut, show getCtx (copyContext st cc.baseCtx).2 st.ctxs.length =
      getCtx st cc.baseCtx from getD_concat_self _ _ _]
    show setCtx ⟨st.ctxs ++ [getCtx st cc.baseCtx], st.arrs⟩ st.ctxs.length _ = _
    rw [setCtx]
    simp [set_concat_self]
  have harr2 : (Inject cc k v st).2.arrs = st.arrs := by rw [hst2]
  have hview : mwView (Inject cc k v st).2 cc.mws = mwView st cc.mws :=
    mwView_arrs _ st _ harr2
  have hc : ∀ mw ∈ mwView st cc.mws, mw.callsNext = true :=
    fun mw hm => (hmv mw hm).1
  have hops : ∀ mw ∈ mwView st cc.mws, ∀ op ∈ mw.enterOps, CtxOp.key op ≠ k :=
    fun mw hm => (hmv mw hm).2
  have hbase2 : getCtx (Inject cc k v st).2 cc.baseCtx = getCtx st cc.baseCtx := by
    rw [hst2]
    exact getD_append_left _ _ _ _ hb
  have hgetN : getCtx (Inject cc k v st).2 st.ctxs.length =
      mapAssign (getCtx st cc.baseCtx) k v := by
    rw [hst2]
    exact getD_concat_self _ _ _
  have hout1 : (serveHTTP (Inject cc k v st).1 (Inject cc k v st).2).1 =
      ((mwView st cc.mws).map MW.enterOut).flatten ++ [renderVal v] ++
        (((mwView st cc.mws).map MW.exitOut).reverse).flatten := by
    rw [serveHTTP_eq]
    show (runMWs (mwView (Inject cc k v st).2 cc.mws) cc.h
        (getCtx (Inject cc k v st).2 st.ctxs.length)).1 = _
    rw [hview, hgetN, runMWs_order _ _ _ hc, hh]
    have hMk : mapLookup (applyEnters (mwView st cc.mws)
        (mapAssign (getCtx st cc.baseCtx) k v)) k = some v := by
      rw [mapLookup_applyEnters_ne _ _ _ hops, mapLookup_mapAssign_self]
    simp [runTerm, applyOps, Get, hMk]
  have hout2 : (serveHTTP cc (Inject cc k v st).2).1 =
      ((mwView st cc.mws).map MW.enterOut).flatten ++ ["<nil>"] ++
        (((mwView st cc.mws).map MW.exitOut).reverse).flatten := by
    rw [serveHTTP_eq, hview, hbase2, runMWs_order _ _ _ hc, hh]
    have hMk2 : mapLookup (applyEnters (mwView st cc.mws)
        (getCtx st cc.baseCtx)) k = none := by
      rw [mapLookup_applyEnters_ne _ _ _ hops]
      exact habs
    simp [runTerm, applyOps, Get, hMk2, renderVal]
  refine ⟨rfl, rfl, hbase2, ?_, fun r => rfl, hout1, hout2⟩
  show mapLookup (getCtx (Inject cc k v st).2 st.ctxs.length) k = some v
  rw [hgetN]
  exact mapLookup_mapAssign_self _ _ _

/-- Witness for C7: injecting `bish=boop` into a middleware-free chain whose
handler reads `bish`, over an empty base context. -/
theorem Inject_ReInit_rebase_isolation_witness :
    mapLookup (getCtx (Inject ⟨nilSlice, ⟨[], [], ["bish"]⟩, 0⟩ "bish"
        (Val.vstr "boop") ⟨[[]], []⟩).2
      (Inject ⟨nilSlice, ⟨[], [], ["bish"]⟩, 0⟩ "bish"
        (Val.vstr "boop") ⟨[[]], []⟩).1.baseCtx) "bish" =
      some (Val.vstr "boop") ∧
    (serveHTTP (Inject ⟨nilSlice, ⟨[], [], ["bish"]⟩, 0⟩ "bish"
        (Val.vstr "boop") ⟨[[]], []⟩).1
      (Inject ⟨nilSlice, ⟨[], [], ["bish"]⟩, 0⟩ "bish"
        (Val.vstr "boop") ⟨[[]], []⟩).2).1 =
      ((mwView (⟨[[]], []⟩ : St) nilSlice).map MW.enterOut).flatten ++
        [renderVal (Val.vstr "boop")] ++
        (((mwView (⟨[[]], []⟩ : St) nilSlice).map MW.exitOut).reverse).flatten ∧
    (serveHTTP ⟨nilSlice, ⟨[], [], ["bish"]⟩, 0⟩
      (Inject ⟨nilSlice, ⟨[], [], ["bish"]⟩, 0⟩ "bish"
        (Val.vstr "boop") ⟨[[]], []⟩).2).1 =
      ((mwView (⟨[[]], []⟩ : St) nilSlice).map MW.enterOut).flatten ++
        ["<nil>"] ++
        (((mwView (⟨[[]], []⟩ : St) nilSlice).map MW.exitOut).reverse).flatten :=
  ⟨(Inject_ReInit_rebase_isolation ⟨nilSlice, ⟨[], [], ["bish"]⟩, 0⟩ "bish"
      (Val.vstr "boop") ⟨[[]], []⟩ (by decide) (by decide) rfl
      (by decide)).2.2.2.1,
   (Inject_ReInit_rebase_isolation ⟨nilSlice, ⟨[], [], ["bish"]⟩, 0⟩ "bish"
      (Val.vstr "boop") ⟨[[]], []⟩ (by decide) (by decide) rfl
      (by decide)).2.2.2.2.2.1,
   (Inject_ReInit_rebase_isolation ⟨nilSlice, ⟨[], [], ["bish"]⟩, 0⟩ "bish"
      (Val.vstr "boop") ⟨[[]], []⟩ (by decide) (by decide) rfl
      (by decide)).2.2.2.2.2.2⟩

end Stack
